import Mathlib

/-!
Verification of the core text-processing and state logic of the Telegram
chatbot (`src/bot.py`): message chunking (`split_message`), response
cleaning (`clean_response`), the authorization gate (`is_user_allowed`),
the conversation store (`get_or_create_conversation`), and the `/search`
command handler (`search_command`).

Strings are modelled as `List Char`; Python `str.split(sep)` is
`splitOnChar`, Python `str.strip()` is `stripL`, Python `len` is
`List.length`, and regular-expression substitution (`re.sub`) is modelled
by an explicit leftmost-match scanner for each of the three concrete
patterns in the source.
-/

/-- Python whitespace (the ASCII characters stripped by `str.strip()` and
matched by the regex class backslash-s). -/
def pyIsSpace (c : Char) : Bool :=
  c == ' ' || c == '\t' || c == '\n' || c == '\r' || c == '\x0b' || c == '\x0c'

/-- Remove trailing characters satisfying `p` (the right half of Python
`str.strip()`), written recursively. -/
def stripEnd (p : Char → Bool) : List Char → List Char
  | [] => []
  | c :: t =>
    if (stripEnd p t).isEmpty then (if p c then [] else [c]) else c :: stripEnd p t

/-- Python `str.strip()`: drop leading and trailing whitespace. -/
def stripL (l : List Char) : List Char :=
  stripEnd pyIsSpace (l.dropWhile pyIsSpace)

/-- Python `str.split(sep)` for a one-character separator: keeps empty
parts, and `"".split(sep) = [""]`. -/
def splitOnChar (sep : Char) : List Char → List (List Char)
  | [] => [[]]
  | c :: t =>
    if c = sep then [] :: splitOnChar sep t
    else
      match splitOnChar sep t with
      | [] => [[c]]
      | p :: ps => (c :: p) :: ps

/-- Intermediate state of `split_message`: the finished chunks and the
chunk currently being accumulated. -/
structure SplitState where
  chunks : List (List Char)
  current_chunk : List Char
deriving Repr, DecidableEq

/-- Python `if current_chunk: chunks.append(current_chunk)`. -/
def appendChunk (st : SplitState) : List (List Char) :=
  if st.current_chunk = [] then st.chunks else st.chunks ++ [st.current_chunk]

/-- The body of the inner word loop of `split_message` (bot.py lines
72-78): one word of an over-long line. -/
def stepWord (max_length : Nat) (st : SplitState) (word : List Char) : SplitState :=
  if st.current_chunk.length + word.length + 1 > max_length then
    { chunks := appendChunk st, current_chunk := word }
  else
    { chunks := st.chunks, current_chunk := stripL (st.current_chunk ++ ' ' :: word) }

/-- The body of the outer line loop of `split_message` (bot.py lines
63-87): one line of the input text. -/
def stepLine (max_length : Nat) (st : SplitState) (line : List Char) : SplitState :=
  if line.length > max_length then
    (splitOnChar ' ' line).foldl (stepWord max_length)
      { chunks := appendChunk st, current_chunk := [] }
  else
    -- Python binds `separator = '\n' if current_chunk else ''`; it is
    -- inlined here, with its length written out in the size test.
    if st.current_chunk.length + (if st.current_chunk = [] then 0 else 1)
        + line.length > max_length then
      { chunks := appendChunk st, current_chunk := line }
    else
      { chunks := st.chunks,
        current_chunk := stripL (st.current_chunk ++
          (if st.current_chunk = [] then [] else ['\n']) ++ line) }

/-- `split_message(text, max_length)` from bot.py lines 55-92 (the Python
default for `max_length` is 4096). -/
def split_message (text : List Char) (max_length : Nat) : List (List Char) :=
  if text.length ≤ max_length then [text]
  else appendChunk ((splitOnChar '\n' text).foldl (stepLine max_length)
    { chunks := [], current_chunk := [] })

/-- The character class of a markdown-link label: anything but a closing
square bracket. -/
def notRBracket (c : Char) : Bool := c != ']'

/-- The character class of a markdown-link target: anything but a closing
parenthesis. -/
def notRParen (c : Char) : Bool := c != ')'

/-- The character class of a bare-URL body: anything but whitespace, an
opening angle bracket, or a closing parenthesis. -/
def urlBodyChar (c : Char) : Bool := !(pyIsSpace c || c == '<' || c == ')')

theorem length_dropWhile_le (p : Char → Bool) (l : List Char) :
    (l.dropWhile p).length ≤ l.length := by
  induction l with
  | nil => simp
  | cons c t ih =>
    rw [List.dropWhile_cons]
    split
    · exact Nat.le_succ_of_le ih
    · simp

/-- Attempt to match the markdown-link regex at the head of `l`.  Both
character classes exclude their closing delimiter, so the greedy match is
the run up to the first delimiter; each run must be nonempty.  Returns the
captured label and the remainder after the match. -/
def matchMdLink : List Char → Option (List Char × List Char)
  | [] => none
  | c :: t =>
    if c = '[' then
      if t.takeWhile notRBracket = [] then none
      else
        match t.dropWhile notRBracket with
        | c1 :: c2 :: rest2 =>
          if c1 = ']' ∧ c2 = '(' then
            if rest2.takeWhile notRParen = [] then none
            else
              match rest2.dropWhile notRParen with
              | c3 :: rest3 =>
                if c3 = ')' then some (t.takeWhile notRBracket, rest3) else none
              | [] => none
          else none
        | _ => none
    else none

theorem matchMdLink_rest_lt {l label rest : List Char}
    (h : matchMdLink l = some (label, rest)) : rest.length < l.length := by
  cases l with
  | nil => simp [matchMdLink] at h
  | cons c t =>
    simp only [matchMdLink] at h
    split at h
    · split at h
      · simp at h
      · split at h
        · rename_i c1 c2 rest2 heq2
          split at h
          · split at h
            · simp at h
            · split at h
              · rename_i c3 rest3 heq4
                split at h
                · have h2 : rest2.length + 2 ≤ t.length := by
                    have hle := length_dropWhile_le notRBracket t
                    rw [heq2] at hle; simpa using hle
                  have h4 : rest3.length + 1 ≤ rest2.length := by
                    have hle := length_dropWhile_le notRParen rest2
                    rw [heq4] at hle; simpa using hle
                  have hr : rest3 = rest := by
                    have := h
                    simp only [Option.some.injEq, Prod.mk.injEq] at this
                    exact this.2
                  subst hr
                  simp only [List.length_cons]
                  omega
                · simp at h
              · simp at h
          · simp at h
        · simp at h
    · simp at h

/-- Attempt to match the bare-URL regex (scheme-prefixed form) at the head
of `l`: the literal prefix `http://` or `https://` followed by a nonempty
run of `urlBodyChar`.  Returns the remainder after the match. -/
def matchHttpUrl (l : List Char) : Option (List Char) :=
  if l.take 7 = "http://".toList then
    if (l.drop 7).takeWhile urlBodyChar = [] then none
    else some ((l.drop 7).dropWhile urlBodyChar)
  else if l.take 8 = "https://".toList then
    if (l.drop 8).takeWhile urlBodyChar = [] then none
    else some ((l.drop 8).dropWhile urlBodyChar)
  else none

/-- Attempt to match the bare-URL regex (`www.`-prefixed form) at the head
of `l`. -/
def matchWwwUrl (l : List Char) : Option (List Char) :=
  if l.take 4 = "www.".toList then
    if (l.drop 4).takeWhile urlBodyChar = [] then none
    else some ((l.drop 4).dropWhile urlBodyChar)
  else none

theorem takeWhile_ne_nil_length_pos {p : Char → Bool} {l : List Char}
    (h : l.takeWhile p ≠ []) : 0 < l.length := by
  cases l with
  | nil => simp at h
  | cons c t => simp

theorem matchHttpUrl_rest_lt {l rest : List Char}
    (h : matchHttpUrl l = some rest) : rest.length < l.length := by
  unfold matchHttpUrl at h
  split at h
  · split at h
    · simp at h
    · rename_i hpre hbody
      have hlen : 7 ≤ l.length := by
        have hl := congrArg List.length hpre
        simp [List.length_take] at hl
        omega
      have hpos := takeWhile_ne_nil_length_pos hbody
      have hle := length_dropWhile_le urlBodyChar (l.drop 7)
      have hd : (l.drop 7).length = l.length - 7 := List.length_drop ..
      have hr : (l.drop 7).dropWhile urlBodyChar = rest := by simpa using h
      rw [hr] at hle
      omega
  · split at h
    · split at h
      · simp at h
      · rename_i hpre2 hbody
        have hlen : 8 ≤ l.length := by
          have hl := congrArg List.length hpre2
          simp [List.length_take] at hl
          omega
        have hpos := takeWhile_ne_nil_length_pos hbody
        have hle := length_dropWhile_le urlBodyChar (l.drop 8)
        have hd : (l.drop 8).length = l.length - 8 := List.length_drop ..
        have hr : (l.drop 8).dropWhile urlBodyChar = rest := by simpa using h
        rw [hr] at hle
        omega
    · simp at h

theorem matchWwwUrl_rest_lt {l rest : List Char}
    (h : matchWwwUrl l = some rest) : rest.length < l.length := by
  unfold matchWwwUrl at h
  split at h
  · split at h
    · simp at h
    · rename_i hpre hbody
      have hlen : 4 ≤ l.length := by
        have hl := congrArg List.length hpre
        simp [List.length_take] at hl
        omega
      have hpos := takeWhile_ne_nil_length_pos hbody
      have hle := length_dropWhile_le urlBodyChar (l.drop 4)
      have hd : (l.drop 4).length = l.length - 4 := List.length_drop ..
      have hr : (l.drop 4).dropWhile urlBodyChar = rest := by simpa using h
      rw [hr] at hle
      omega
  · simp at h

/-- Fuel-indexed scanner for the markdown-link substitution.  Every match
consumes at least one character, so fuel equal to the length of the input
suffices; the fuel only serves to make the recursion structural (and hence
kernel-evaluable). -/
def subMdLinksAux : Nat → List Char → List Char
  | 0, l => l
  | _ + 1, [] => []
  | fuel + 1, c :: t =>
    match matchMdLink (c :: t) with
    | some (label, rest) => label ++ subMdLinksAux fuel rest
    | none => c :: subMdLinksAux fuel t

/-- `re.sub` for the markdown-link pattern with replacement by the
captured label: scan left to right, replace each leftmost match, continue
after the match. -/
def subMdLinks (l : List Char) : List Char := subMdLinksAux l.length l

/-- Fuel-indexed scanner for the scheme-prefixed URL substitution. -/
def subHttpUrlsAux : Nat → List Char → List Char
  | 0, l => l
  | _ + 1, [] => []
  | fuel + 1, c :: t =>
    match matchHttpUrl (c :: t) with
    | some rest => subHttpUrlsAux fuel rest
    | none => c :: subHttpUrlsAux fuel t

/-- `re.sub` for the scheme-prefixed URL pattern with empty replacement. -/
def subHttpUrls (l : List Char) : List Char := subHttpUrlsAux l.length l

/-- Fuel-indexed scanner for the `www.`-prefixed URL substitution. -/
def subWwwUrlsAux : Nat → List Char → List Char
  | 0, l => l
  | _ + 1, [] => []
  | fuel + 1, c :: t =>
    match matchWwwUrl (c :: t) with
    | some rest => subWwwUrlsAux fuel rest
    | none => c :: subWwwUrlsAux fuel t

/-- `re.sub` for the `www.`-prefixed URL pattern with empty replacement. -/
def subWwwUrls (l : List Char) : List Char := subWwwUrlsAux l.length l

theorem subMdLinksAux_eq (fuel1 : Nat) : ∀ (fuel2 : Nat) (l : List Char),
    l.length ≤ fuel1 → l.length ≤ fuel2 →
    subMdLinksAux fuel1 l = subMdLinksAux fuel2 l := by
  induction fuel1 with
  | zero =>
    intro fuel2 l h1 h2
    have hl : l = [] := by cases l <;> simp_all
    subst hl
    cases fuel2 <;> rfl
  | succ f ih =>
    intro fuel2 l h1 h2
    cases l with
    | nil => cases fuel2 <;> rfl
    | cons c t =>
      cases fuel2 with
      | zero => simp at h2
      | succ g =>
        simp only [List.length_cons] at h1 h2
        cases hm : matchMdLink (c :: t) with
        | some pr =>
          obtain ⟨label, rest⟩ := pr
          have hrest := matchMdLink_rest_lt hm
          simp only [List.length_cons] at hrest
          simp only [subMdLinksAux, hm]
          rw [ih g rest (by omega) (by omega)]
        | none =>
          simp only [subMdLinksAux, hm]
          rw [ih g t (by omega) (by omega)]

theorem subHttpUrlsAux_eq (fuel1 : Nat) : ∀ (fuel2 : Nat) (l : List Char),
    l.length ≤ fuel1 → l.length ≤ fuel2 →
    subHttpUrlsAux fuel1 l = subHttpUrlsAux fuel2 l := by
  induction fuel1 with
  | zero =>
    intro fuel2 l h1 h2
    have hl : l = [] := by cases l <;> simp_all
    subst hl
    cases fuel2 <;> rfl
  | succ f ih =>
    intro fuel2 l h1 h2
    cases l with
    | nil => cases fuel2 <;> rfl
    | cons c t =>
      cases fuel2 with
      | zero => simp at h2
      | succ g =>
        simp only [List.length_cons] at h1 h2
        cases hm : matchHttpUrl (c :: t) with
        | some rest =>
          have hrest := matchHttpUrl_rest_lt hm
          simp only [List.length_cons] at hrest
          simp only [subHttpUrlsAux, hm]
          rw [ih g rest (by omega) (by omega)]
        | none =>
          simp only [subHttpUrlsAux, hm]
          rw [ih g t (by omega) (by omega)]

theorem subWwwUrlsAux_eq (fuel1 : Nat) : ∀ (fuel2 : Nat) (l : List Char),
    l.length ≤ fuel1 → l.length ≤ fuel2 →
    subWwwUrlsAux fuel1 l = subWwwUrlsAux fuel2 l := by
  induction fuel1 with
  | zero =>
    intro fuel2 l h1 h2
    have hl : l = [] := by cases l <;> simp_all
    subst hl
    cases fuel2 <;> rfl
  | succ f ih =>
    intro fuel2 l h1 h2
    cases l with
    | nil => cases fuel2 <;> rfl
    | cons c t =>
      cases fuel2 with
      | zero => simp at h2
      | succ g =>
        simp only [List.length_cons] at h1 h2
        cases hm : matchWwwUrl (c :: t) with
        | some rest =>
          have hrest := matchWwwUrl_rest_lt hm
          simp only [List.length_cons] at hrest
          simp only [subWwwUrlsAux, hm]
          rw [ih g rest (by omega) (by omega)]
        | none =>
          simp only [subWwwUrlsAux, hm]
          rw [ih g t (by omega) (by omega)]

/-- `clean_response(text)` from bot.py lines 95-110: replace markdown
links by their labels, delete bare URLs, then strip the result. -/
def clean_response (text : List Char) : List Char :=
  stripL (subWwwUrls (subHttpUrls (subMdLinks text)))

/-- `is_user_allowed(user_id)` from bot.py lines 37-41.  The configured
privileged identifier `ALLOWED_USER_ID` is `none` when the environment
variable is unset. -/
def is_user_allowed (allowed_user_id : Option Int) (user_id : Int) : Bool :=
  match allowed_user_id with
  | none => true
  | some a => user_id == a

/-- Result of `get_or_create_conversation`: the returned conversation id,
the user-to-conversation mapping after the call, and whether the external
conversation-creation API was invoked. -/
structure GocResult where
  conversation_id : String
  store : Int → Option String
  created : Bool

/-- `get_or_create_conversation(user_id)` from bot.py lines 147-164.  The
module-level dict `user_conversations` is passed in and returned
explicitly; `new_id` is the id the external creation call would return on
a miss. -/
def get_or_create_conversation (store : Int → Option String) (new_id : String)
    (user_id : Int) : GocResult :=
  match store user_id with
  | some conversation_id => ⟨conversation_id, store, false⟩
  | none =>
    ⟨new_id, fun k => if k = user_id then some new_id else store k, true⟩

/-- The instruction appended to the query by the `/search` handler
(bot.py line 250, the text after the query in `search_prompt`). -/
def searchSuffix : String :=
  "\n\nIMPORTANT: Use HTML formatting (<b>, <i>, <code>) for structure. You may mention source names (e.g., \x27nytimes\x27, \x27reddit\x27) but NEVER include URLs, links, or markdown syntax. Rewrite all information in your own words using HTML tags for formatting."

/-- Observable outcome of the `/search` handler: either the usage reply
(no orchestrator call, no conversation creation, store untouched) or an
invocation of `send_to_openai` with the given message and search flag. -/
inductive SearchAction where
  | usageReply
  | invoke (message : String) (use_web_search : Bool)
deriving Repr, DecidableEq

/-- `search_command` from bot.py lines 241-251.  `args` is
`context.args`; Python builds `query` as the space-join of `args` when
`args` is nonempty, else `None`, and treats both `None` and the empty
string as falsy. -/
def search_command (args : List String) : SearchAction :=
  match (if args.isEmpty then none
         else some (String.intercalate " " args) : Option String) with
  | none => SearchAction.usageReply
  | some q =>
    if q = "" then SearchAction.usageReply
    else SearchAction.invoke (q ++ searchSuffix) true

/-- The completion-request parameters built by `send_to_openai`
(bot.py lines 177-186): `tools` is present exactly when `use_web_search`
is set. -/
structure ApiParams where
  model : String
  input : String
  max_output_tokens : Nat
  conversation : String
  reasoning_effort : String
  tools : Option (List String)
deriving Repr, DecidableEq

/-- Assembly of `api_params` in `send_to_openai` (bot.py lines 177-186). -/
def build_api_params (model conversation input : String)
    (use_web_search : Bool) : ApiParams :=
  { model := model, input := input, max_output_tokens := 5000,
    conversation := conversation, reasoning_effort := "low",
    tools := if use_web_search then some ["web_search"] else none }

/-! ### Helper lemmas about stripping, splitting and filtering -/

/-- The non-whitespace content of a string: the subsequence of characters
that Python `str.strip()` and the chunker's whitespace handling can never
touch. -/
def nonWS (l : List Char) : List Char := l.filter (fun c => !pyIsSpace c)

theorem nonWS_append (a b : List Char) : nonWS (a ++ b) = nonWS a ++ nonWS b :=
  List.filter_append ..

theorem filter_dropWhile {p q : Char → Bool} (hpq : ∀ a, q a = true → p a = false)
    (l : List Char) : (l.dropWhile q).filter p = l.filter p := by
  induction l with
  | nil => rfl
  | cons c t ih =>
    rw [List.dropWhile_cons]
    by_cases hq : q c = true
    · rw [if_pos hq, ih, List.filter_cons, hpq c hq]
      simp
    · rw [if_neg hq]

theorem filter_stripEnd {p q : Char → Bool} (hpq : ∀ a, q a = true → p a = false)
    (l : List Char) : (stripEnd q l).filter p = l.filter p := by
  induction l with
  | nil => rfl
  | cons c t ih =>
    by_cases hr : stripEnd q t = []
    · have ht : t.filter p = [] := by rw [← ih, hr]; rfl
      by_cases hq : q c = true
      · simp [stripEnd, hr, hq, hpq c hq, List.filter_cons, ht]
      · simp [stripEnd, hr, hq, List.filter_cons, ht]
    · simp only [stripEnd, List.isEmpty_iff, if_neg hr, List.filter_cons, ih]

theorem nonWS_stripL (l : List Char) : nonWS (stripL l) = nonWS l := by
  unfold stripL nonWS
  have hpq : ∀ a, pyIsSpace a = true → (fun c => !pyIsSpace c) a = false := by
    intro a ha; simp [ha]
  rw [filter_stripEnd hpq, filter_dropWhile hpq]

theorem length_stripEnd_le (p : Char → Bool) (l : List Char) :
    (stripEnd p l).length ≤ l.length := by
  induction l with
  | nil => simp [stripEnd]
  | cons c t ih =>
    by_cases hr : stripEnd p t = []
    · by_cases hq : p c = true
      · simp [stripEnd, hr, hq]
      · simp [stripEnd, hr, hq]
    · simp only [stripEnd, List.isEmpty_iff, if_neg hr, List.length_cons]
      omega

theorem length_stripL_le (l : List Char) : (stripL l).length ≤ l.length :=
  le_trans (length_stripEnd_le ..) (length_dropWhile_le ..)

theorem dropWhile_idem (p : Char → Bool) (l : List Char) :
    (l.dropWhile p).dropWhile p = l.dropWhile p := by
  induction l with
  | nil => rfl
  | cons c t ih =>
    rw [List.dropWhile_cons]
    by_cases hq : p c = true
    · rw [if_pos hq]; exact ih
    · rw [if_neg hq, List.dropWhile_cons, if_neg hq]

theorem stripEnd_idem (p : Char → Bool) (l : List Char) :
    stripEnd p (stripEnd p l) = stripEnd p l := by
  induction l with
  | nil => rfl
  | cons c t ih =>
    by_cases hr : stripEnd p t = []
    · by_cases hq : p c = true
      · simp [stripEnd, hr, hq]
      · simp [stripEnd, hr, hq]
    · simp [stripEnd, List.isEmpty_iff, ih, hr]

theorem dropWhile_stripEnd (p : Char → Bool) (l : List Char)
    (hl : l.dropWhile p = l) : (stripEnd p l).dropWhile p = stripEnd p l := by
  cases l with
  | nil => rfl
  | cons c t =>
    have hc : p c = false := by
      by_contra hc
      rw [List.dropWhile_cons, if_pos (by simpa using hc)] at hl
      have hlen := congrArg List.length hl
      have hle := length_dropWhile_le p t
      simp at hlen
      omega
    by_cases hr : stripEnd p t = []
    · simp [stripEnd, hr, hc, List.dropWhile_cons]
    · simp only [stripEnd, List.isEmpty_iff, if_neg hr]
      rw [List.dropWhile_cons, if_neg (by simp [hc])]

theorem stripL_idem (l : List Char) : stripL (stripL l) = stripL l := by
  unfold stripL
  rw [dropWhile_stripEnd pyIsSpace (l.dropWhile pyIsSpace) (dropWhile_idem ..),
    stripEnd_idem]

theorem splitOnChar_ne_nil (sep : Char) (l : List Char) : splitOnChar sep l ≠ [] := by
  cases l with
  | nil => simp [splitOnChar]
  | cons c t =>
    simp only [splitOnChar]
    split
    · simp
    · split <;> simp

theorem splitOnChar_eq_single {sep : Char} {l : List Char}
    (h : ∀ c ∈ l, c ≠ sep) : splitOnChar sep l = [l] := by
  induction l with
  | nil => rfl
  | cons c t ih =>
    have hc : c ≠ sep := h c (by simp)
    have ht : splitOnChar sep t = [t] := ih (fun x hx => h x (by simp [hx]))
    simp [splitOnChar, hc, ht]

theorem splitOnChar_replicate (sep : Char) (n : Nat) :
    splitOnChar sep (List.replicate n sep) = List.replicate (n + 1) [] := by
  induction n with
  | zero => rfl
  | succ k ih => simp [List.replicate_succ, splitOnChar, ih]

theorem nonWS_cons (c : Char) (l : List Char) :
    nonWS (c :: l) = if pyIsSpace c then nonWS l else c :: nonWS l := by
  simp only [nonWS, List.filter_cons]
  by_cases hc : pyIsSpace c = true <;> simp [hc]

theorem nonWS_splitOnChar {sep : Char} (hsep : pyIsSpace sep = true) (l : List Char) :
    ((splitOnChar sep l).map nonWS).flatten = nonWS l := by
  induction l with
  | nil => simp [splitOnChar, nonWS]
  | cons c t ih =>
    by_cases h : c = sep
    · subst h
      have hsplit : splitOnChar c (c :: t) = [] :: splitOnChar c t := by
        simp [splitOnChar]
      rw [hsplit, List.map_cons, List.flatten_cons, ih, nonWS_cons, if_pos hsep]
      rfl
    · have hsplit := splitOnChar_ne_nil sep t
      cases hs : splitOnChar sep t with
      | nil => exact absurd hs hsplit
      | cons p ps =>
        have hcons : splitOnChar sep (c :: t) = (c :: p) :: ps := by
          simp [splitOnChar, h, hs]
        rw [hs] at ih
        simp only [List.map_cons, List.flatten_cons] at ih
        rw [hcons, List.map_cons, List.flatten_cons, nonWS_cons, nonWS_cons]
        by_cases hc : pyIsSpace c = true
        · simp only [if_pos hc]
          exact ih
        · simp only [if_neg hc, List.cons_append]
          rw [ih]

/-! ### Non-whitespace content preservation through `split_message` -/

/-- The non-whitespace content held in a `SplitState`: everything in the
finished chunks followed by the chunk in progress. -/
def nwState (st : SplitState) : List Char :=
  (st.chunks.map nonWS).flatten ++ nonWS st.current_chunk

theorem nwState_appendChunk (st : SplitState) :
    ((appendChunk st).map nonWS).flatten = nwState st := by
  unfold appendChunk nwState
  by_cases h : st.current_chunk = []
  · simp [h, nonWS]
  · simp [h]

theorem nwState_stepWord (m : Nat) (st : SplitState) (w : List Char) :
    nwState (stepWord m st w) = nwState st ++ nonWS w := by
  unfold stepWord
  split
  · have h1 : nwState ⟨appendChunk st, w⟩
        = ((appendChunk st).map nonWS).flatten ++ nonWS w := rfl
    rw [h1, nwState_appendChunk]
  · have h2 : nwState ⟨st.chunks, stripL (st.current_chunk ++ ' ' :: w)⟩
        = (st.chunks.map nonWS).flatten
          ++ nonWS (stripL (st.current_chunk ++ ' ' :: w)) := rfl
    rw [h2, nonWS_stripL, nonWS_append, nonWS_cons,
      if_pos (show pyIsSpace ' ' = true from rfl)]
    simp [nwState, List.append_assoc]

theorem nwState_foldl_stepWord (m : Nat) (ws : List (List Char)) (st : SplitState) :
    nwState (ws.foldl (stepWord m) st) = nwState st ++ (ws.map nonWS).flatten := by
  induction ws generalizing st with
  | nil => simp
  | cons w rest ih =>
    simp only [List.foldl_cons, List.map_cons, List.flatten_cons]
    rw [ih, nwState_stepWord, List.append_assoc]

theorem nwState_stepLine (m : Nat) (st : SplitState) (line : List Char) :
    nwState (stepLine m st line) = nwState st ++ nonWS line := by
  unfold stepLine
  split
  · rw [nwState_foldl_stepWord, nonWS_splitOnChar (show pyIsSpace ' ' = true from rfl)]
    have h0 : nwState ⟨appendChunk st, []⟩
        = ((appendChunk st).map nonWS).flatten ++ nonWS [] := rfl
    rw [h0, nwState_appendChunk]
    simp [nonWS]
  · by_cases hcur : st.current_chunk = []
    · simp only [if_pos hcur]
      split
      · have h1 : nwState ⟨appendChunk st, line⟩
            = ((appendChunk st).map nonWS).flatten ++ nonWS line := rfl
        rw [h1, nwState_appendChunk]
      · have h2 : nwState ⟨st.chunks, stripL (st.current_chunk ++ [] ++ line)⟩
            = (st.chunks.map nonWS).flatten
              ++ nonWS (stripL (st.current_chunk ++ [] ++ line)) := rfl
        rw [h2, nonWS_stripL, nonWS_append, nonWS_append]
        simp [nwState, hcur, nonWS, List.append_assoc]
    · simp only [if_neg hcur]
      split
      · have h1 : nwState ⟨appendChunk st, line⟩
            = ((appendChunk st).map nonWS).flatten ++ nonWS line := rfl
        rw [h1, nwState_appendChunk]
      · have h2 : nwState ⟨st.chunks, stripL (st.current_chunk ++ ['\n'] ++ line)⟩
            = (st.chunks.map nonWS).flatten
              ++ nonWS (stripL (st.current_chunk ++ ['\n'] ++ line)) := rfl
        rw [h2, nonWS_stripL, nonWS_append, nonWS_append]
        have hn : nonWS ['\n'] = [] := rfl
        rw [hn]
        simp [nwState, List.append_assoc]

theorem nwState_foldl_stepLine (m : Nat) (lines : List (List Char)) (st : SplitState) :
    nwState (lines.foldl (stepLine m) st) = nwState st ++ (lines.map nonWS).flatten := by
  induction lines generalizing st with
  | nil => simp
  | cons line rest ih =>
    simp only [List.foldl_cons, List.map_cons, List.flatten_cons]
    rw [ih, nwState_stepLine, List.append_assoc]

theorem nonWS_flatten (L : List (List Char)) :
    nonWS L.flatten = (L.map nonWS).flatten := by
  induction L with
  | nil => rfl
  | cons a L ih => simp only [List.flatten_cons, List.map_cons, nonWS_append, ih]

/-- `split_message` preserves the non-whitespace content of its input, in
order: no non-whitespace character is lost, duplicated or reordered. -/
theorem split_message_nonWS (text : List Char) (m : Nat) :
    nonWS (split_message text m).flatten = nonWS text := by
  unfold split_message
  split
  · simp
  · rw [nonWS_flatten, nwState_appendChunk, nwState_foldl_stepLine,
      nonWS_splitOnChar (show pyIsSpace '\n' = true from rfl)]
    simp [nwState, nonWS]

/-! ### Chunk-length bounds for `split_message` -/

/-- Every finished chunk, and the chunk in progress, is within the limit. -/
def boundedState (m : Nat) (st : SplitState) : Prop :=
  (∀ c ∈ st.chunks, c.length ≤ m) ∧ st.current_chunk.length ≤ m

theorem boundedState_appendChunk {m : Nat} {st : SplitState}
    (h : boundedState m st) : ∀ c ∈ appendChunk st, c.length ≤ m := by
  intro c hc
  unfold appendChunk at hc
  split at hc
  · exact h.1 c hc
  · rcases List.mem_append.mp hc with hm | hm
    · exact h.1 c hm
    · simp at hm
      subst hm
      exact h.2

theorem boundedState_stepWord {m : Nat} {st : SplitState} {w : List Char}
    (h : boundedState m st) (hw : w.length ≤ m) :
    boundedState m (stepWord m st w) := by
  unfold stepWord
  split
  · exact ⟨boundedState_appendChunk h, hw⟩
  · rename_i hfit
    refine ⟨h.1, ?_⟩
    show (stripL (st.current_chunk ++ ' ' :: w)).length ≤ m
    have h3 := length_stripL_le (st.current_chunk ++ ' ' :: w)
    have h4 : (st.current_chunk ++ ' ' :: w).length
        = st.current_chunk.length + w.length + 1 := by
      simp only [List.length_append, List.length_cons]
      omega
    omega

theorem boundedState_foldl_stepWord {m : Nat} {ws : List (List Char)} {st : SplitState}
    (hws : ∀ w ∈ ws, w.length ≤ m) (h : boundedState m st) :
    boundedState m (ws.foldl (stepWord m) st) := by
  induction ws generalizing st with
  | nil => exact h
  | cons w rest ih =>
    rw [List.foldl_cons]
    exact ih (fun x hx => hws x (by simp [hx]))
      (boundedState_stepWord h (hws w (by simp)))

theorem boundedState_stepLine {m : Nat} {st : SplitState} {line : List Char}
    (hwords : ∀ w ∈ splitOnChar ' ' line, w.length ≤ m)
    (h : boundedState m st) : boundedState m (stepLine m st line) := by
  unfold stepLine
  split
  · exact boundedState_foldl_stepWord hwords ⟨boundedState_appendChunk h, by simp⟩
  · rename_i hshort
    by_cases hcur : st.current_chunk = []
    · simp only [if_pos hcur]
      split
      · refine ⟨boundedState_appendChunk h, ?_⟩
        show line.length ≤ m
        omega
      · refine ⟨h.1, ?_⟩
        show (stripL (st.current_chunk ++ [] ++ line)).length ≤ m
        have h3 := length_stripL_le (st.current_chunk ++ [] ++ line)
        have h4 : (st.current_chunk ++ [] ++ line).length
            = st.current_chunk.length + line.length := by
          simp only [List.length_append, List.length_nil]
          omega
        omega
    · simp only [if_neg hcur]
      split
      · refine ⟨boundedState_appendChunk h, ?_⟩
        show line.length ≤ m
        omega
      · rename_i hfit
        refine ⟨h.1, ?_⟩
        show (stripL (st.current_chunk ++ ['\n'] ++ line)).length ≤ m
        have h3 := length_stripL_le (st.current_chunk ++ ['\n'] ++ line)
        have h4 : (st.current_chunk ++ ['\n'] ++ line).length
            = st.current_chunk.length + 1 + line.length := by
          simp only [List.length_append, List.length_cons, List.length_nil]
        omega

theorem boundedState_foldl_stepLine {m : Nat} {lines : List (List Char)} {st : SplitState}
    (hlines : ∀ line ∈ lines, ∀ w ∈ splitOnChar ' ' line, w.length ≤ m)
    (h : boundedState m st) :
    boundedState m (lines.foldl (stepLine m) st) := by
  induction lines generalizing st with
  | nil => exact h
  | cons line rest ih =>
    rw [List.foldl_cons]
    exact ih (fun x hx => hlines x (by simp [hx]))
      (boundedState_stepLine (hlines line (by simp)) h)

/-- If no space-delimited word of any newline-delimited line exceeds the
limit, every chunk produced by `split_message` is within the limit. -/
theorem split_message_bounded (text : List Char) (m : Nat)
    (hw : ∀ line ∈ splitOnChar '\n' text, ∀ w ∈ splitOnChar ' ' line, w.length ≤ m) :
    ∀ chunk ∈ split_message text m, chunk.length ≤ m := by
  unfold split_message
  split
  · rename_i hle
    intro chunk hc
    simp at hc
    subst hc
    exact hle
  · intro chunk hc
    exact boundedState_appendChunk
      (boundedState_foldl_stepLine hw ⟨by simp, by simp⟩) chunk hc

/-- On text containing neither newline nor space, longer than the limit,
`split_message` returns the whole text as one oversized chunk. -/
theorem split_message_no_sep {text : List Char} {m : Nat}
    (hsep : ∀ c ∈ text, c ≠ '\n' ∧ c ≠ ' ') (hlen : text.length > m) :
    split_message text m = [text] := by
  have hne : text ≠ [] := by
    intro h
    subst h
    simp at hlen
  unfold split_message
  rw [if_neg (by omega)]
  rw [splitOnChar_eq_single (fun c hc => (hsep c hc).1)]
  rw [List.foldl_cons, List.foldl_nil]
  unfold stepLine
  rw [if_pos hlen]
  rw [splitOnChar_eq_single (fun c hc => (hsep c hc).2)]
  rw [List.foldl_cons, List.foldl_nil]
  unfold stepWord
  rw [if_pos (by simp; omega)]
  unfold appendChunk
  simp [hne]

/-! ### Equation and identity lemmas for the substitution scanners -/

theorem subMdLinks_cons_some {c : Char} {t label rest : List Char}
    (h : matchMdLink (c :: t) = some (label, rest)) :
    subMdLinks (c :: t) = label ++ subMdLinks rest := by
  have hrest := matchMdLink_rest_lt h
  simp only [List.length_cons] at hrest
  unfold subMdLinks
  simp only [List.length_cons, subMdLinksAux, h]
  rw [subMdLinksAux_eq t.length rest.length rest (by omega) (by omega)]

theorem subMdLinks_cons_none {c : Char} {t : List Char}
    (h : matchMdLink (c :: t) = none) :
    subMdLinks (c :: t) = c :: subMdLinks t := by
  unfold subMdLinks
  simp only [List.length_cons, subMdLinksAux, h]

theorem subHttpUrls_cons_some {c : Char} {t rest : List Char}
    (h : matchHttpUrl (c :: t) = some rest) :
    subHttpUrls (c :: t) = subHttpUrls rest := by
  have hrest := matchHttpUrl_rest_lt h
  simp only [List.length_cons] at hrest
  unfold subHttpUrls
  simp only [List.length_cons, subHttpUrlsAux, h]
  rw [subHttpUrlsAux_eq t.length rest.length rest (by omega) (by omega)]

theorem subHttpUrls_cons_none {c : Char} {t : List Char}
    (h : matchHttpUrl (c :: t) = none) :
    subHttpUrls (c :: t) = c :: subHttpUrls t := by
  unfold subHttpUrls
  simp only [List.length_cons, subHttpUrlsAux, h]

theorem subWwwUrls_cons_some {c : Char} {t rest : List Char}
    (h : matchWwwUrl (c :: t) = some rest) :
    subWwwUrls (c :: t) = subWwwUrls rest := by
  have hrest := matchWwwUrl_rest_lt h
  simp only [List.length_cons] at hrest
  unfold subWwwUrls
  simp only [List.length_cons, subWwwUrlsAux, h]
  rw [subWwwUrlsAux_eq t.length rest.length rest (by omega) (by omega)]

theorem subWwwUrls_cons_none {c : Char} {t : List Char}
    (h : matchWwwUrl (c :: t) = none) :
    subWwwUrls (c :: t) = c :: subWwwUrls t := by
  unfold subWwwUrls
  simp only [List.length_cons, subWwwUrlsAux, h]

theorem subMdLinks_id {l : List Char} (h : ∀ n, matchMdLink (l.drop n) = none) :
    subMdLinks l = l := by
  induction l with
  | nil => rfl
  | cons c t ih =>
    have h0 := h 0
    rw [List.drop_zero] at h0
    rw [subMdLinks_cons_none h0, ih (fun n => by simpa using h (n + 1))]

theorem subHttpUrls_id {l : List Char} (h : ∀ n, matchHttpUrl (l.drop n) = none) :
    subHttpUrls l = l := by
  induction l with
  | nil => rfl
  | cons c t ih =>
    have h0 := h 0
    rw [List.drop_zero] at h0
    rw [subHttpUrls_cons_none h0, ih (fun n => by simpa using h (n + 1))]

theorem subWwwUrls_id {l : List Char} (h : ∀ n, matchWwwUrl (l.drop n) = none) :
    subWwwUrls l = l := by
  induction l with
  | nil => rfl
  | cons c t ih =>
    have h0 := h 0
    rw [List.drop_zero] at h0
    rw [subWwwUrls_cons_none h0, ih (fun n => by simpa using h (n + 1))]

/-! ### Decidable absence of any pattern match -/

/-- No suffix of `l` starts with a markdown-link match (it suffices to
check offsets up to the length, every further suffix being empty). -/
def mdLinkFree (l : List Char) : Bool :=
  (List.range (l.length + 1)).all fun n => (matchMdLink (l.drop n)).isNone

/-- No suffix of `l` starts with a scheme-prefixed URL match. -/
def httpUrlFree (l : List Char) : Bool :=
  (List.range (l.length + 1)).all fun n => (matchHttpUrl (l.drop n)).isNone

/-- No suffix of `l` starts with a `www.`-prefixed URL match. -/
def wwwUrlFree (l : List Char) : Bool :=
  (List.range (l.length + 1)).all fun n => (matchWwwUrl (l.drop n)).isNone

/-- `l` contains no substring matched by any of the three cleaning
patterns. -/
def patternFree (l : List Char) : Bool :=
  mdLinkFree l && httpUrlFree l && wwwUrlFree l

theorem mdLinkFree_all {l : List Char} (h : mdLinkFree l = true) :
    ∀ n, matchMdLink (l.drop n) = none := by
  intro n
  by_cases hn : n ≤ l.length
  · have hx := List.all_eq_true.mp h n (List.mem_range.mpr (by omega))
    simpa [Option.isNone_iff_eq_none] using hx
  · rw [List.drop_eq_nil_of_le (by omega)]
    rfl

theorem httpUrlFree_all {l : List Char} (h : httpUrlFree l = true) :
    ∀ n, matchHttpUrl (l.drop n) = none := by
  intro n
  by_cases hn : n ≤ l.length
  · have hx := List.all_eq_true.mp h n (List.mem_range.mpr (by omega))
    simpa [Option.isNone_iff_eq_none] using hx
  · rw [List.drop_eq_nil_of_le (by omega)]
    rfl

theorem wwwUrlFree_all {l : List Char} (h : wwwUrlFree l = true) :
    ∀ n, matchWwwUrl (l.drop n) = none := by
  intro n
  by_cases hn : n ≤ l.length
  · have hx := List.all_eq_true.mp h n (List.mem_range.mpr (by omega))
    simpa [Option.isNone_iff_eq_none] using hx
  · rw [List.drop_eq_nil_of_le (by omega)]
    rfl

/-- On pattern-free input all three substitutions are the identity, so
`clean_response` only strips. -/
theorem clean_response_of_patternFree {text : List Char}
    (h : patternFree text = true) : clean_response text = stripL text := by
  have h3 : mdLinkFree text = true ∧ httpUrlFree text = true ∧ wwwUrlFree text = true := by
    simpa [patternFree, Bool.and_eq_true, and_assoc] using h
  unfold clean_response
  rw [subMdLinks_id (mdLinkFree_all h3.1), subHttpUrls_id (httpUrlFree_all h3.2.1),
    subWwwUrls_id (wwwUrlFree_all h3.2.2)]

/-! ### Behaviour of the markdown-link substitution on a well-formed link -/

theorem takeWhile_append_all {p : Char → Bool} {L : List Char}
    (hL : ∀ c ∈ L, p c = true) {x : Char} (hx : p x = false) (r : List Char) :
    (L ++ x :: r).takeWhile p = L ∧ (L ++ x :: r).dropWhile p = x :: r := by
  induction L with
  | nil => simp [List.takeWhile_cons, List.dropWhile_cons, hx]
  | cons a L ih =>
    have ha : p a = true := hL a (by simp)
    have ih2 := ih (fun c hc => hL c (by simp [hc]))
    simp [List.takeWhile_cons, List.dropWhile_cons, ha, ih2.1, ih2.2]

/-- A well-formed markdown link `[L](U)`: the label `L` is nonempty and
free of closing brackets, the target `U` is nonempty and free of closing
parentheses. -/
def mdLink (L U : List Char) : List Char :=
  '[' :: (L ++ (']' :: '(' :: (U ++ [')'])))

theorem mdLink_append (L U post : List Char) :
    mdLink L U ++ post = '[' :: (L ++ (']' :: '(' :: (U ++ (')' :: post)))) := by
  simp [mdLink, List.append_assoc]

theorem matchMdLink_link {L U : List Char} (post : List Char)
    (hL : L ≠ []) (hLb : ∀ c ∈ L, c ≠ ']') (hU : U ≠ []) (hUp : ∀ c ∈ U, c ≠ ')') :
    matchMdLink ('[' :: (L ++ (']' :: '(' :: (U ++ (')' :: post))))) = some (L, post) := by
  have hLb2 : ∀ c ∈ L, notRBracket c = true := fun c hc => by
    simp [notRBracket, hLb c hc]
  have hU2 : ∀ c ∈ U, notRParen c = true := fun c hc => by
    simp [notRParen, hUp c hc]
  have h1 := takeWhile_append_all hLb2
    (show notRBracket ']' = false from rfl) ('(' :: (U ++ (')' :: post)))
  have h2 := takeWhile_append_all hU2
    (show notRParen ')' = false from rfl) post
  simp only [matchMdLink, if_pos rfl, h1.1, h1.2, h2.1, h2.2]
  simp [hL, hU]

theorem matchMdLink_not_bracket {c : Char} (hc : c ≠ '[') (t : List Char) :
    matchMdLink (c :: t) = none := by
  simp [matchMdLink, hc]

/-- The scanner copies a prefix containing no opening bracket verbatim. -/
theorem subMdLinks_append {pre : List Char} (rest : List Char)
    (hpre : ∀ c ∈ pre, c ≠ '[') :
    subMdLinks (pre ++ rest) = pre ++ subMdLinks rest := by
  induction pre with
  | nil => rfl
  | cons c p ih =>
    have hc := hpre c (by simp)
    rw [List.cons_append,
      subMdLinks_cons_none (matchMdLink_not_bracket hc _),
      ih (fun x hx => hpre x (by simp [hx])), List.cons_append]

/-- A cleanly delimited markdown link is replaced by exactly its label,
and scanning continues after the closing parenthesis. -/
theorem subMdLinks_mdLink {pre L U : List Char} (post : List Char)
    (hpre : ∀ c ∈ pre, c ≠ '[') (hL : L ≠ []) (hLb : ∀ c ∈ L, c ≠ ']')
    (hU : U ≠ []) (hUp : ∀ c ∈ U, c ≠ ')') :
    subMdLinks (pre ++ mdLink L U ++ post) = pre ++ L ++ subMdLinks post := by
  rw [List.append_assoc, subMdLinks_append (mdLink L U ++ post) hpre, mdLink_append,
    subMdLinks_cons_some (matchMdLink_link post hL hLb hU hUp), List.append_assoc]

/-! ### Claim theorems -/

/-- C6: with no privileged identifier configured, `is_user_allowed`
accepts every identifier; with one configured, it accepts exactly that
identifier and rejects every other. -/
theorem C6_authorization :
    (∀ user_id : Int, is_user_allowed none user_id = true)
    ∧ (∀ a user_id : Int, is_user_allowed (some a) user_id = true ↔ user_id = a) := by
  constructor
  · intro user_id
    rfl
  · intro a user_id
    simp [is_user_allowed]

/-- C7: calling `get_or_create_conversation` twice in sequence for the
same user (starting from a store with no entry for that user, and with no
intervening clear) returns the identical conversation id both times; the
first call performs the single conversation-creation call, and the second
is a pure lookup that creates nothing and leaves the store unchanged. -/
theorem C7_get_or_create_twice (store : Int → Option String) (user_id : Int)
    (id1 id2 : String) (h : store user_id = none) :
    (get_or_create_conversation store id1 user_id).conversation_id
      = (get_or_create_conversation
          (get_or_create_conversation store id1 user_id).store id2 user_id).conversation_id
    ∧ (get_or_create_conversation store id1 user_id).created = true
    ∧ (get_or_create_conversation
        (get_or_create_conversation store id1 user_id).store id2 user_id).created = false
    ∧ (get_or_create_conversation
        (get_or_create_conversation store id1 user_id).store id2 user_id).store
      = (get_or_create_conversation store id1 user_id).store := by
  unfold get_or_create_conversation
  rw [h]
  simp

/-- C7 witness: the empty store, user 0, two candidate creation ids. -/
theorem C7_witness :
    ((fun _ => none : Int → Option String) 0 = none)
    ∧ ((get_or_create_conversation (fun _ => none) "conv1" 0).conversation_id
        = (get_or_create_conversation
            (get_or_create_conversation (fun _ => none) "conv1" 0).store "conv2" 0).conversation_id
      ∧ (get_or_create_conversation (fun _ => none) "conv1" 0).created = true
      ∧ (get_or_create_conversation
          (get_or_create_conversation (fun _ => none) "conv1" 0).store "conv2" 0).created = false
      ∧ (get_or_create_conversation
          (get_or_create_conversation (fun _ => none) "conv1" 0).store "conv2" 0).store
        = (get_or_create_conversation (fun _ => none) "conv1" 0).store) :=
  ⟨rfl, C7_get_or_create_twice (fun _ => none) 0 "conv1" "conv2" rfl⟩

/-- C10: `get_or_create_conversation` never overwrites an existing entry —
on a hit the entire mapping is returned unchanged — and on every call (hit
or miss) the entry of every other user is unchanged. -/
theorem C10_no_overwrite_frame (store : Int → Option String) (new_id : String)
    (user_id : Int) :
    (∀ cid, store user_id = some cid →
      (get_or_create_conversation store new_id user_id).store = store)
    ∧ (∀ other : Int, other ≠ user_id →
      (get_or_create_conversation store new_id user_id).store other = store other) := by
  constructor
  · intro cid hcid
    unfold get_or_create_conversation
    rw [hcid]
  · intro other hother
    unfold get_or_create_conversation
    cases hs : store user_id with
    | some cid => rfl
    | none => simp [hother]

/-- C10 witness: a store holding user 5; a hit for user 5 leaves the
mapping unchanged, and a miss for user 3 leaves entry 5 unchanged. -/
theorem C10_witness :
    ((fun k : Int => if k = 5 then some "existing" else none) 5 = some "existing")
    ∧ (get_or_create_conversation
        (fun k : Int => if k = 5 then some "existing" else none) "fresh" 5).store
      = (fun k : Int => if k = 5 then some "existing" else none)
    ∧ ((5 : Int) ≠ 3)
    ∧ (get_or_create_conversation
        (fun k : Int => if k = 5 then some "existing" else none) "fresh" 3).store 5
      = (fun k : Int => if k = 5 then some "existing" else none) 5 := by
  refine ⟨rfl, ?_, by decide, ?_⟩
  · exact (C10_no_overwrite_frame _ "fresh" 5).1 "existing" rfl
  · exact (C10_no_overwrite_frame _ "fresh" 3).2 5 (by decide)

/-- C8: the `/search` handler replies with the usage message and performs
no orchestrator call when the argument string is absent or empty; with a
nonempty argument it invokes the orchestrator on the query followed by the
added instruction and with web search enabled, which places the web-search
tool in the request parameters (and omits it otherwise). -/
theorem C8_search_command :
    (search_command [] = SearchAction.usageReply)
    ∧ (∀ args : List String, args ≠ [] → String.intercalate " " args = "" →
        search_command args = SearchAction.usageReply)
    ∧ (∀ args : List String, args ≠ [] → String.intercalate " " args ≠ "" →
        search_command args
          = SearchAction.invoke (String.intercalate " " args ++ searchSuffix) true)
    ∧ (∀ model conversation input : String,
        (build_api_params model conversation input true).tools = some ["web_search"]
        ∧ (build_api_params model conversation input false).tools = none) := by
  refine ⟨rfl, ?_, ?_, ?_⟩
  · intro args hne hempty
    unfold search_command
    simp [List.isEmpty_iff, hne, hempty]
  · intro args hne hnonempty
    unfold search_command
    simp [List.isEmpty_iff, hne, hnonempty]
  · intro model conversation input
    exact ⟨rfl, rfl⟩

/-- C8 witness: the single-word query `weather`. -/
theorem C8_witness :
    (["weather"] : List String) ≠ []
    ∧ String.intercalate " " ["weather"] ≠ ""
    ∧ search_command ["weather"]
        = SearchAction.invoke (String.intercalate " " ["weather"] ++ searchSuffix) true :=
  ⟨by decide, by decide, C8_search_command.2.2.1 ["weather"] (by decide) (by decide)⟩

/-- C9: the output of `clean_response` never has leading or trailing
whitespace — stripping it again is a no-op — even when the input contains
no link or URL. -/
theorem C9_output_stripped (text : List Char) :
    stripL (clean_response text) = clean_response text := by
  unfold clean_response
  exact stripL_idem _

/-- C1 counterexample: a single word of 4097 characters (no space, no
newline) has length > 4096, yet `split_message` returns it as ONE chunk of
length 4097 — both the two-chunk lower bound and the 4096 chunk-size bound
of the claim fail. -/
theorem C1_counterexample :
    (List.replicate 4097 'a').length > 4096
    ∧ split_message (List.replicate 4097 'a') 4096 = [List.replicate 4097 'a']
    ∧ ¬(2 ≤ (split_message (List.replicate 4097 'a') 4096).length
        ∧ ∀ chunk ∈ split_message (List.replicate 4097 'a') 4096,
            chunk.length ≤ 4096) := by
  have hs : split_message (List.replicate 4097 'a') 4096
      = [List.replicate 4097 'a'] :=
    split_message_no_sep
      (fun c hc => by
        have hc2 : c = 'a' := List.eq_of_mem_replicate hc
        subst hc2
        exact ⟨by decide, by decide⟩)
      (by rw [List.length_replicate]; omega)
  refine ⟨by rw [List.length_replicate]; omega, hs, ?_⟩
  rw [hs]
  rintro ⟨h2, -⟩
  simp only [List.length_cons, List.length_nil] at h2
  omega

/-- C1 (amended): for every text of length > 4096 in which every
space-delimited word of every newline-delimited line is at most 4096
characters, every chunk returned by `split_message` with the default limit
has length ≤ 4096.  (As stated the claim fails: a single overlong word is
returned as one oversized chunk — see the counterexample — so neither the
"at least 2 chunks" part nor the unconditional size bound holds.) -/
theorem C1_amended_chunk_bound (text : List Char) (_hlen : text.length > 4096)
    (hw : ∀ line ∈ splitOnChar '\n' text, ∀ w ∈ splitOnChar ' ' line,
      w.length ≤ 4096) :
    ∀ chunk ∈ split_message text 4096, chunk.length ≤ 4096 :=
  split_message_bounded text 4096 hw

/-- C1 witness: 4097 newlines — longer than the limit, every word empty. -/
theorem C1_witness :
    (List.replicate 4097 '\n').length > 4096
    ∧ ∀ chunk ∈ split_message (List.replicate 4097 '\n') 4096,
        chunk.length ≤ 4096 := by
  refine ⟨by rw [List.length_replicate]; omega,
    C1_amended_chunk_bound _ (by rw [List.length_replicate]; omega) ?_⟩
  rw [splitOnChar_replicate]
  intro line hline
  have hl : line = [] := List.eq_of_mem_replicate hline
  subst hl
  intro w hw
  have hsw : splitOnChar ' ' [] = [[]] := rfl
  rw [hsw] at hw
  simp at hw
  subst hw
  simp

/-- C2: for every input of length > 4096, the concatenation of the chunks
returned by `split_message` with the default limit has exactly the
non-whitespace content of the input, in the original order: no
non-whitespace character is lost, duplicated, or reordered (differences
are confined to whitespace trimmed or collapsed at boundaries). -/
theorem C2_content_preserved (text : List Char) (_hlen : text.length > 4096) :
    nonWS (split_message text 4096).flatten = nonWS text :=
  split_message_nonWS text 4096

/-- C2 witness: 4097 copies of `b`. -/
theorem C2_witness :
    (List.replicate 4097 'b').length > 4096
    ∧ nonWS (split_message (List.replicate 4097 'b') 4096).flatten
        = nonWS (List.replicate 4097 'b') :=
  ⟨by rw [List.length_replicate]; omega,
    C2_content_preserved _ (by rw [List.length_replicate]; omega)⟩

/-- C3 counterexample: `" a"` contains no markdown-link and no URL match,
yet `clean_response " a" = "a"` differs from the input: cleaning is not
the identity on pattern-free inputs, because the result is always
stripped. -/
theorem C3_counterexample :
    patternFree " a".toList = true ∧ clean_response " a".toList ≠ " a".toList :=
  ⟨by decide, by decide⟩

/-- C3 (amended): on input free of markdown-link and URL matches,
`clean_response` returns the input stripped of leading and trailing
whitespace only; in particular it is the identity exactly when the
pattern-free input carries no boundary whitespace. -/
theorem C3_amended_identity (text : List Char) (h : patternFree text = true) :
    clean_response text = stripL text
    ∧ (stripL text = text → clean_response text = text) := by
  have hc := clean_response_of_patternFree h
  exact ⟨hc, fun hs => by rw [hc, hs]⟩

/-- C3 witness: a pattern-free, already-stripped input on which cleaning
is the identity. -/
theorem C3_witness :
    patternFree "hello world".toList = true
    ∧ stripL "hello world".toList = "hello world".toList
    ∧ clean_response "hello world".toList = "hello world".toList :=
  ⟨by decide, by decide,
    (C3_amended_identity "hello world".toList (by decide)).2 (by decide)⟩

/-- C4 counterexample: in `"[a](b) b"` the markdown link `[a](b)` (label
`a`, url `b`) is replaced by its label, but the literal URL `b` still
appears in the output `"a b"`, because the same string also occurs outside
the link — refuting the claim that the URL of a replaced link never
appears in the output. -/
theorem C4_counterexample :
    "[a](b) b".toList = mdLink "a".toList "b".toList ++ " b".toList
    ∧ clean_response "[a](b) b".toList = "a b".toList
    ∧ ∃ s t : List Char, clean_response "[a](b) b".toList = s ++ "b".toList ++ t :=
  ⟨by decide, by decide, ⟨"a ".toList, [], by decide⟩⟩

/-- C4 (amended): whenever a markdown link `[L](U)` is cleanly matched —
the text before it contains no opening bracket, `L` is nonempty without a
closing bracket, `U` is nonempty without a closing parenthesis — the
link-substitution pass of `clean_response` replaces the whole link by
exactly the label `L`, deleting that occurrence of `U`, and
`clean_response` continues with the URL passes and the final strip on the
rewritten text.  (A separate occurrence of the same string `U` elsewhere
survives this pass — see the counterexample.) -/
theorem C4_amended_link_replacement (pre L U post : List Char)
    (hpre : ∀ c ∈ pre, c ≠ '[') (hL : L ≠ []) (hLb : ∀ c ∈ L, c ≠ ']')
    (hU : U ≠ []) (hUp : ∀ c ∈ U, c ≠ ')') :
    subMdLinks (pre ++ mdLink L U ++ post) = pre ++ L ++ subMdLinks post
    ∧ clean_response (pre ++ mdLink L U ++ post)
      = stripL (subWwwUrls (subHttpUrls (pre ++ L ++ subMdLinks post))) := by
  have h1 := subMdLinks_mdLink post hpre hL hLb hU hUp
  refine ⟨h1, ?_⟩
  unfold clean_response
  rw [h1]

/-- C4 witness: the concrete cleanly-matched link in `x:[a](b)y`. -/
theorem C4_witness :
    (∀ c ∈ "x:".toList, c ≠ '[')
    ∧ "a".toList ≠ [] ∧ (∀ c ∈ "a".toList, c ≠ ']')
    ∧ "b".toList ≠ [] ∧ (∀ c ∈ "b".toList, c ≠ ')')
    ∧ subMdLinks ("x:".toList ++ mdLink "a".toList "b".toList ++ "y".toList)
        = "x:".toList ++ "a".toList ++ subMdLinks "y".toList :=
  ⟨by decide, by decide, by decide, by decide, by decide,
    (C4_amended_link_replacement "x:".toList "a".toList "b".toList "y".toList
      (by decide) (by decide) (by decide) (by decide) (by decide)).1⟩

/-- C5 counterexample: cleaning is not idempotent.  One pass over
`"[L[a](b)](U)"` yields `"L[a](U)"` — the leftmost match swallows the
nested opening bracket and its replacement exposes a new link — and a
second pass yields `"La"`. -/
theorem C5_counterexample :
    clean_response "[L[a](b)](U)".toList = "L[a](U)".toList
    ∧ clean_response (clean_response "[L[a](b)](U)".toList)
        ≠ clean_response "[L[a](b)](U)".toList :=
  ⟨by decide, by decide⟩

/-- C5 (amended): cleaning is idempotent on every input whose cleaned form
contains no markdown-link or URL match; the failing inputs are exactly
those whose first pass exposes a fresh match, as in the counterexample. -/
theorem C5_amended_idempotent (text : List Char)
    (h : patternFree (clean_response text) = true) :
    clean_response (clean_response text) = clean_response text := by
  rw [clean_response_of_patternFree h]
  unfold clean_response
  exact stripL_idem _

/-- C5 witness: ordinary text whose cleaned form is pattern-free. -/
theorem C5_witness :
    patternFree (clean_response "plain text".toList) = true
    ∧ clean_response (clean_response "plain text".toList)
        = clean_response "plain text".toList :=
  ⟨by decide, C5_amended_idempotent "plain text".toList (by decide)⟩
